import Mathlib

set_option maxRecDepth 8000

namespace CausalDiscoveryNotebook

/-! Shallow embedding of the two helper functions of the notebook
`dowhy_causal_discovery_example.ipynb`: `make_graph`, which turns a numeric
adjacency matrix into a directed-graph description, and `str_to_dot`, which
rewrites the rendered graph text into the dialect expected downstream.

Python floats are embedded as rationals, Python strings as lists of
characters, and a Python `IndexError` as `Option.none`. -/

/-- Embeds `np.abs(adjacency_matrix) > 0.01`, the per-entry threshold test. -/
def aboveThreshold (x : ℚ) : Bool := decide (mkRat 1 100 < |x|)

/-- Embeds `dirs = np.where(idx)` zipped with `adjacency_matrix[idx]`: the
row-major list of `(row, column, entry)` for every entry whose absolute value
exceeds the threshold. -/
def edgeTriples (M : List (List ℚ)) : List (Nat × Nat × ℚ) :=
  ((List.range M.length).map (fun r =>
    (List.range (M.getD r []).length).filterMap (fun c =>
      if aboveThreshold ((M.getD r []).getD c 0) then
        some (r, c, (M.getD r []).getD c 0)
      else none))).flatten

/-- Embeds the synthetic label list `[f'x\x7bi\x7d' for i in range(len(adjacency_matrix))]`. -/
def defaultNames (n : Nat) : List String :=
  (List.range n).map (fun i => "x" ++ toString i)

/-- Embeds `names = labels if labels else [...]`: a provided empty list is
falsy in Python, so it falls back to the synthetic names. -/
def resolveNames (labels : Option (List String)) (n : Nat) : List String :=
  match labels with
  | some l => if l.isEmpty then defaultNames n else l
  | none => defaultNames n

/-- The graph object built by `make_graph`: declared node names in order, and
directed edges as (source name, target name, coefficient).  The coefficient
field records the matrix entry whose string form `str(coef)` is the edge's
label in the Python code; `str` is injective on the numeric entries, so the
entry determines the label text. -/
structure Digraph where
  nodes : List String
  edges : List (String × String × ℚ)
deriving DecidableEq

/-- Embeds one `d.edge(names[from_], names[to], label=str(coef))` call for the
triple `t = (to, from_, coef)`; `none` models the `IndexError` raised when a
name lookup is out of range. -/
def mkEdge (names : List String) (t : Nat × Nat × ℚ) : Option (String × String × ℚ) :=
  match names.get? t.2.1, names.get? t.1 with
  | some f, some s => some (f, s, t.2.2)
  | _, _ => none

/-- Embeds the edge loop `for to, from_, coef in zip(...): d.edge(...)`:
build one edge per triple, propagating an `IndexError` (`none`) if any
name lookup is out of range. -/
def buildEdges (names : List String) :
    List (Nat × Nat × ℚ) → Option (List (String × String × ℚ))
  | [] => some []
  | t :: ts =>
    match mkEdge names t, buildEdges names ts with
    | some e, some es => some (e :: es)
    | _, _ => none

/-- Embeds `make_graph(adjacency_matrix, labels)`: declare one node per name,
then add one edge per above-threshold entry, from `names[column]` to
`names[row]`, in row-major order.  `none` models the `IndexError` that
propagates when some edge endpoint index is out of range of the name list. -/
def make_graph (M : List (List ℚ)) (labels : Option (List String)) : Option Digraph :=
  (buildEdges (resolveNames labels M.length) (edgeTriples M)).map
    (fun es => Digraph.mk (resolveNames labels M.length) es)

/-- Embeds Python's notion of whitespace used by `str.strip()`. -/
def isPyWs (c : Char) : Bool :=
  c = ' ' || c = '\t' || c = '\n' || c = '\r' || c = '\x0b' || c = '\x0c'

/-- Trailing-whitespace removal, the second half of `str.strip()`. -/
def rstripWs (s : List Char) : List Char :=
  (s.reverse.dropWhile isPyWs).reverse

/-- Embeds `string.strip()`: remove leading and trailing whitespace. -/
def pyStrip (s : List Char) : List Char :=
  rstripWs (s.dropWhile isPyWs)

/-- Embeds the character map of `.replace('\n', ';')`. -/
def nlToSemi (c : Char) : Char := if c = '\n' then ';' else c

/-- Embeds `string.strip().replace('\n', ';').replace('\t', '')`, the first
line of `str_to_dot`. -/
def preprocess (s : List Char) : List Char :=
  ((pyStrip s).map nlToSemi).filter (fun c => c != '\t')

/-- Embeds `str_to_dot`: after preprocessing, return
`graph[:9] + graph[10:-2] + graph[-1]`.  Evaluating `graph[-1]` on an empty
string raises `IndexError`, modelled by `none`; the two slices never raise. -/
def str_to_dot (s : List Char) : Option (List Char) :=
  ((preprocess s).get? ((preprocess s).length - 1)).map (fun last =>
    (preprocess s).take 9 ++
      ((preprocess s).take ((preprocess s).length - 2)).drop 10 ++ [last])

/-! Helper lemmas about the embedding. -/

/-- Membership in the row-major triple list: exactly the above-threshold
entries, tagged with their matrix position. -/
theorem mem_edgeTriples {M : List (List ℚ)} {t : Nat × Nat × ℚ} :
    t ∈ edgeTriples M ↔ ∃ r c, r < M.length ∧ c < (M.getD r []).length ∧
      aboveThreshold ((M.getD r []).getD c 0) = true ∧
      t = (r, c, (M.getD r []).getD c 0) := by
  unfold edgeTriples
  simp only [List.mem_flatten, List.mem_map, List.mem_range]
  constructor
  · rintro ⟨l, ⟨r, hr, rfl⟩, hmem⟩
    rcases List.mem_filterMap.mp hmem with ⟨c, hc, hif⟩
    rw [List.mem_range] at hc
    by_cases hab : aboveThreshold ((M.getD r []).getD c 0) = true
    · rw [if_pos hab] at hif
      exact ⟨r, c, hr, hc, hab, (Option.some_inj.mp hif).symm⟩
    · rw [if_neg hab] at hif
      cases hif
  · rintro ⟨r, c, hr, hc, hab, rfl⟩
    refine ⟨_, ⟨r, hr, rfl⟩, List.mem_filterMap.mpr ⟨c, List.mem_range.mpr hc, ?_⟩⟩
    rw [if_pos hab]

/-- A square matrix's rows, addressed through `getD`, all have side length. -/
theorem getD_length_of_square {M : List (List ℚ)}
    (hsq : ∀ row ∈ M, row.length = M.length) {r : Nat} (hr : r < M.length) :
    (M.getD r []).length = M.length := by
  rw [List.getD_eq_getElem?_getD, List.getElem?_eq_getElem hr]
  exact hsq _ (List.getElem_mem hr)

/-- In a square matrix both indices of every emitted triple are below the
side length. -/
theorem edgeTriples_indices_lt {M : List (List ℚ)}
    (hsq : ∀ row ∈ M, row.length = M.length) {t : Nat × Nat × ℚ}
    (ht : t ∈ edgeTriples M) : t.1 < M.length ∧ t.2.1 < M.length := by
  rcases mem_edgeTriples.mp ht with ⟨r, c, hr, hc, _, rfl⟩
  rw [getD_length_of_square hsq hr] at hc
  exact ⟨hr, hc⟩

/-- When every name lookup succeeds, the edge loop succeeds and returns the
pointwise image of the triple list. -/
theorem buildEdges_eq_map (names : List String) (d : String × String × ℚ) :
    ∀ ts : List (Nat × Nat × ℚ), (∀ t ∈ ts, (mkEdge names t).isSome = true) →
      buildEdges names ts = some (ts.map (fun t => (mkEdge names t).getD d))
  | [], _ => rfl
  | t :: ts, h => by
    rcases Option.isSome_iff_exists.mp (h t (List.mem_cons_self t ts)) with ⟨e, he⟩
    have ih := buildEdges_eq_map names d ts (fun x hx => h x (List.mem_cons_of_mem t hx))
    simp [buildEdges, he, ih]

/-- Elements of a successful edge-loop result are exactly the images of the
triples. -/
theorem buildEdges_mem (names : List String) {e : String × String × ℚ} :
    ∀ {ts : List (Nat × Nat × ℚ)} {es : List (String × String × ℚ)},
      buildEdges names ts = some es → (e ∈ es ↔ ∃ t ∈ ts, mkEdge names t = some e)
  | [], es, h => by
    cases h
    simp
  | t :: ts, es, h => by
    rcases hfa : mkEdge names t with _ | b
    · rw [buildEdges, hfa] at h
      cases h
    · rcases hml : buildEdges names ts with _ | bs
      · rw [buildEdges, hfa, hml] at h
        cases h
      · rw [buildEdges, hfa, hml] at h
        cases h
        have ih := @buildEdges_mem names e ts bs hml
        simp only [List.mem_cons]
        constructor
        · rintro (rfl | he)
          · exact ⟨t, Or.inl rfl, hfa⟩
          · rcases ih.mp he with ⟨x, hx, hfx⟩
            exact ⟨x, Or.inr hx, hfx⟩
        · rintro ⟨x, (rfl | hx), hfx⟩
          · rw [hfa] at hfx
            exact Or.inl (Option.some_inj.mp hfx).symm
          · exact Or.inr (ih.mpr ⟨x, hx, hfx⟩)

/-- The edge loop fails exactly when some lookup is out of range. -/
theorem buildEdges_eq_none (names : List String) :
    ∀ ts : List (Nat × Nat × ℚ),
      (buildEdges names ts = none ↔ ∃ t ∈ ts, mkEdge names t = none)
  | [] => by simp [buildEdges]
  | t :: ts => by
    have ih := buildEdges_eq_none names ts
    rcases hfa : mkEdge names t with _ | b
    · simp [buildEdges, hfa]
    · rcases hml : buildEdges names ts with _ | bs
      · rw [hml] at ih
        simp only [buildEdges, hfa, hml, List.mem_cons]
        constructor
        · intro _
          rcases ih.mp rfl with ⟨x, hx, hfx⟩
          exact ⟨x, Or.inr hx, hfx⟩
        · intro _; trivial
      · rw [hml] at ih
        simp only [buildEdges, hfa, hml, List.mem_cons]
        constructor
        · intro h; cases h
        · rintro ⟨x, (rfl | hx), hfx⟩
          · cases hfa ▸ hfx
          · cases ih.mpr ⟨x, hx, hfx⟩

/-- A label list of the matrix's own length is used as given (an empty list
is only possible for the empty matrix, where the synthetic list is empty
too). -/
theorem resolveNames_eq_self {n : Nat} {L : List String} (hL : L.length = n) :
    resolveNames (some L) n = L := by
  cases L with
  | nil =>
    cases hL
    rfl
  | cons a l => rfl

/-- A nonempty provided label list is used as given. -/
theorem resolveNames_of_ne_nil {n : Nat} {L : List String} (hL : L ≠ []) :
    resolveNames (some L) n = L := by
  cases L with
  | nil => cases hL rfl
  | cons a l => rfl

/-- The synthetic label list has one name per matrix row. -/
theorem defaultNames_length (n : Nat) : (defaultNames n).length = n := by
  simp [defaultNames]

/-- With both endpoint indices in range, one edge call returns the labelled
edge from `names[column]` to `names[row]`. -/
theorem mkEdge_eq_of_lt {names : List String} {t : Nat × Nat × ℚ}
    (h1 : t.2.1 < names.length) (h2 : t.1 < names.length) :
    mkEdge names t = some (names.getD t.2.1 "", names.getD t.1 "", t.2.2) := by
  unfold mkEdge
  rw [List.get?_eq_getElem?, List.get?_eq_getElem?,
    List.getElem?_eq_getElem h1, List.getElem?_eq_getElem h2]
  simp [h1, h2]

/-- One edge call faults exactly when an endpoint index is out of range. -/
theorem mkEdge_eq_none_iff {names : List String} {t : Nat × Nat × ℚ} :
    mkEdge names t = none ↔ names.length ≤ t.1 ∨ names.length ≤ t.2.1 := by
  unfold mkEdge
  rcases h1 : names.get? t.2.1 with _ | f
  · rw [List.get?_eq_getElem?] at h1
    exact iff_of_true rfl (Or.inr (List.getElem?_eq_none_iff.mp h1))
  · rcases h2 : names.get? t.1 with _ | s
    · rw [List.get?_eq_getElem?] at h2
      exact iff_of_true rfl (Or.inl (List.getElem?_eq_none_iff.mp h2))
    · rw [List.get?_eq_getElem?] at h1 h2
      refine iff_of_false (by simp) ?_
      rintro (h | h)
      · rw [List.getElem?_eq_none h] at h2
        cases h2
      · rw [List.getElem?_eq_none h] at h1
        cases h1

/-- Structural description of a successful `make_graph` run: the declared
nodes are the resolved names and the edges are the pointwise images of the
row-major above-threshold triples. -/
theorem make_graph_eq (M : List (List ℚ)) (labels : Option (List String))
    (h : ∀ t ∈ edgeTriples M, t.1 < (resolveNames labels M.length).length ∧
          t.2.1 < (resolveNames labels M.length).length) :
    make_graph M labels = some (Digraph.mk (resolveNames labels M.length)
      ((edgeTriples M).map (fun t =>
        ((resolveNames labels M.length).getD t.2.1 "",
         (resolveNames labels M.length).getD t.1 "", t.2.2)))) := by
  have hrange : ∀ t ∈ edgeTriples M,
      (mkEdge (resolveNames labels M.length) t).isSome = true := by
    intro t ht
    rw [mkEdge_eq_of_lt (h t ht).2 (h t ht).1]
    rfl
  have hbuild := buildEdges_eq_map (resolveNames labels M.length) ("", "", 0)
    (edgeTriples M) hrange
  unfold make_graph
  rw [hbuild, Option.map_some']
  refine congrArg some (congrArg _ (List.map_congr_left ?_))
  intro t ht
  rw [mkEdge_eq_of_lt (h t ht).2 (h t ht).1, Option.getD_some]

/-- For a square matrix with a matching label list, every emitted triple's
indices are valid positions in the resolved name list. -/
theorem triples_in_range (M : List (List ℚ)) (L : List String)
    (hsq : ∀ row ∈ M, row.length = M.length) (hL : L.length = M.length) :
    ∀ t ∈ edgeTriples M, t.1 < (resolveNames (some L) M.length).length ∧
      t.2.1 < (resolveNames (some L) M.length).length := by
  intro t ht
  rw [resolveNames_eq_self hL, hL]
  exact edgeTriples_indices_lt hsq ht

/-- An all-zero matrix generates no triples at all. -/
theorem edgeTriples_eq_nil_of_zero {M : List (List ℚ)}
    (hz : ∀ row ∈ M, ∀ x ∈ row, x = 0) : edgeTriples M = [] := by
  rw [List.eq_nil_iff_forall_not_mem]
  intro t ht
  rcases mem_edgeTriples.mp ht with ⟨r, c, hr, hc, hab, _⟩
  have hrow : M.getD r [] = M[r] := by
    rw [List.getD_eq_getElem?_getD, List.getElem?_eq_getElem hr]
    rfl
  have hx : (M.getD r []).getD c 0 = (M.getD r [])[c] := by
    rw [List.getD_eq_getElem?_getD, List.getElem?_eq_getElem hc]
    rfl
  have hzero : (M.getD r []).getD c 0 = 0 := by
    rw [hx]
    refine hz (M.getD r []) ?_ _ (List.getElem_mem hc)
    rw [hrow]
    exact List.getElem_mem hr
  rw [hzero] at hab
  have : aboveThreshold 0 = false := by decide
  rw [this] at hab
  cases hab

def M22 : List (List ℚ) := [[0, mkRat 1 2], [mkRat 1 50, 0]]

/-- C1: for every square matrix `M` and matching label list `L`, `make_graph`
returns a graph whose edge set is exactly the set of edges from `L[c]` to
`L[r]` carrying entry `M[r][c]` (whose string form is the printed label), for
exactly the positions `(r, c)` whose entry is strictly above the 0.01
absolute-value threshold. -/
theorem make_graph_edge_set (M : List (List ℚ)) (L : List String)
    (hsq : ∀ row ∈ M, row.length = M.length) (hL : L.length = M.length) :
    ∃ g, make_graph M (some L) = some g ∧
      ∀ e : String × String × ℚ, e ∈ g.edges ↔
        ∃ r c, r < M.length ∧ c < M.length ∧
          aboveThreshold ((M.getD r []).getD c 0) = true ∧
          e = (L.getD c "", L.getD r "", (M.getD r []).getD c 0) := by
  refine ⟨_, make_graph_eq M (some L) (triples_in_range M L hsq hL), ?_⟩
  intro e
  dsimp only
  rw [resolveNames_eq_self hL]
  rw [List.mem_map]
  constructor
  · rintro ⟨t, ht, rfl⟩
    rcases mem_edgeTriples.mp ht with ⟨r, c, hr, hc, hab, rfl⟩
    have hc' : c < M.length := by rwa [getD_length_of_square hsq hr] at hc
    exact ⟨r, c, hr, hc', hab, rfl⟩
  · rintro ⟨r, c, hr, hc, hab, rfl⟩
    refine ⟨(r, c, (M.getD r []).getD c 0),
      mem_edgeTriples.mpr ⟨r, c, hr, ?_, hab, rfl⟩, rfl⟩
    rw [getD_length_of_square hsq hr]
    exact hc

/-- Witness for C1 at the notebook's 2×2 scenario matrix. -/
theorem make_graph_edge_set_witness :
    ∃ g, make_graph M22 (some ["a", "b"]) = some g ∧
      ∀ e : String × String × ℚ, e ∈ g.edges ↔
        ∃ r c, r < M22.length ∧ c < M22.length ∧
          aboveThreshold ((M22.getD r []).getD c 0) = true ∧
          e = (["a", "b"].getD c "", ["a", "b"].getD r "",
            (M22.getD r []).getD c 0) :=
  make_graph_edge_set M22 ["a", "b"] (by decide) (by decide)

/-- C3 as stated is false: on `M = [[0, 0.5], [0.02, 0]]` with labels
`[a, b]` the half-weight edge points from `b` to `a` (the entry sits at row
0, column 1, and edges run from column label to row label), so no edge from
`a` to `b` labelled by 0.5 is emitted. -/
theorem scenario_edges_counterexample :
    make_graph M22 (some ["a", "b"]) =
      some (Digraph.mk ["a", "b"] [("b", "a", mkRat 1 2), ("a", "b", mkRat 1 50)]) ∧
    ("a", "b", mkRat 1 2) ∉ [("b", "a", mkRat 1 2), ("a", "b", mkRat 1 50)] := by
  decide

/-- C3 amended: on `M = [[0, 0.5], [0.02, 0]]` with labels `[a, b]`,
`make_graph` emits exactly two edges, from `b` to `a` carrying 0.5 and from
`a` to `b` carrying 0.02, in that order. -/
theorem scenario_edges :
    make_graph M22 (some ["a", "b"]) =
      some (Digraph.mk ["a", "b"] [("b", "a", mkRat 1 2), ("a", "b", mkRat 1 50)]) := by
  decide

/-- C4: for every square matrix and matching label list, `make_graph`
declares exactly the given labels as nodes, in order (hence one node per
label, even with no incident edges), and an all-zero matrix yields those
nodes and an empty edge list. -/
theorem make_graph_node_decls (M : List (List ℚ)) (L : List String)
    (hsq : ∀ row ∈ M, row.length = M.length) (hL : L.length = M.length) :
    ∃ g, make_graph M (some L) = some g ∧ g.nodes = L ∧
      g.nodes.length = M.length ∧
      ((∀ row ∈ M, ∀ x ∈ row, x = 0) → g.edges = []) := by
  refine ⟨_, make_graph_eq M (some L) (triples_in_range M L hsq hL),
    resolveNames_eq_self hL, ?_, ?_⟩
  · dsimp only
    rw [resolveNames_eq_self hL]
    exact hL
  · intro hz
    dsimp only
    rw [edgeTriples_eq_nil_of_zero hz]
    rfl

/-- Witness for C4 at the all-zero 2×2 boundary case. -/
theorem make_graph_node_decls_witness :
    ∃ g, make_graph [[0, 0], [0, 0]] (some ["a", "b"]) = some g ∧
      g.nodes = ["a", "b"] ∧
      g.nodes.length = [[(0:ℚ), 0], [0, 0]].length ∧
      ((∀ row ∈ [[(0:ℚ), 0], [0, 0]], ∀ x ∈ row, x = 0) → g.edges = []) :=
  make_graph_node_decls [[0, 0], [0, 0]] ["a", "b"] (by decide) (by decide)

/-- In-range triples for the synthetic name list of a square matrix. -/
theorem triples_in_range_default (M : List (List ℚ))
    (hsq : ∀ row ∈ M, row.length = M.length) :
    ∀ t ∈ edgeTriples M, t.1 < (resolveNames none M.length).length ∧
      t.2.1 < (resolveNames none M.length).length := by
  intro t ht
  have h := edgeTriples_indices_lt hsq ht
  simpa [resolveNames, defaultNames_length] using h

/-- C5: with the labels argument omitted, `make_graph` on a square matrix
with `n` rows succeeds and declares the synthetic nodes `x0`, …, `x(n-1)`,
i.e. the string `x` followed by the zero-based index, in index order. -/
theorem make_graph_default_names (M : List (List ℚ))
    (hsq : ∀ row ∈ M, row.length = M.length) :
    ∃ g, make_graph M none = some g ∧
      g.nodes = (List.range M.length).map (fun i => "x" ++ toString i) :=
  ⟨_, make_graph_eq M none (triples_in_range_default M hsq), rfl⟩

/-- Witness for C5 at the 2×2 scenario matrix: nodes are `x0`, `x1`. -/
theorem make_graph_default_names_witness :
    ∃ g, make_graph M22 none = some g ∧
      g.nodes = (List.range M22.length).map (fun i => "x" ++ toString i) :=
  make_graph_default_names M22 (by decide)

/-- C9: a provided empty label list is falsy in Python, so `make_graph`
treats it exactly as an omitted argument: the two calls are equal, and on a
square matrix the returned graph declares the `n` synthetic nodes rather
than zero nodes. -/
theorem make_graph_empty_labels (M : List (List ℚ))
    (hsq : ∀ row ∈ M, row.length = M.length) :
    make_graph M (some []) = make_graph M none ∧
    ∃ g, make_graph M (some []) = some g ∧
      g.nodes = defaultNames M.length ∧ g.nodes.length = M.length := by
  refine ⟨rfl, ?_⟩
  have hb : ∀ t ∈ edgeTriples M, t.1 < (resolveNames (some []) M.length).length ∧
      t.2.1 < (resolveNames (some []) M.length).length :=
    triples_in_range_default M hsq
  exact ⟨_, make_graph_eq M (some []) hb, rfl, defaultNames_length M.length⟩

/-- Witness for C9 at the 2×2 scenario matrix. -/
theorem make_graph_empty_labels_witness :
    make_graph M22 (some []) = make_graph M22 none ∧
    ∃ g, make_graph M22 (some []) = some g ∧
      g.nodes = defaultNames M22.length ∧ g.nodes.length = M22.length :=
  make_graph_empty_labels M22 (by decide)

/-- C8 as stated is false: the 1×1 zero matrix with a two-element label list
is a shape mismatch, yet `make_graph` raises no out-of-range fault and
returns a graph (with both labels declared and no edges), because the node
loop never indexes and no above-threshold entry exercises an out-of-range
index. -/
theorem make_graph_mismatch_counterexample :
    ["a", "b"].length ≠ [[(0:ℚ)]].length ∧
    make_graph [[(0:ℚ)]] (some ["a", "b"]) =
      some (Digraph.mk ["a", "b"] []) := by
  decide

/-- C8 amended: with a provided nonempty label list, `make_graph` faults
with an out-of-range lookup exactly when some above-threshold entry's row or
column index is at or beyond the end of the label list; any other shape
mismatch (extra labels, or missing labels never indexed by an
above-threshold entry) silently returns a graph. -/
theorem make_graph_mismatch_fault (M : List (List ℚ)) (L : List String)
    (hL : L ≠ []) :
    make_graph M (some L) = none ↔
      ∃ t ∈ edgeTriples M, L.length ≤ t.1 ∨ L.length ≤ t.2.1 := by
  unfold make_graph
  rw [resolveNames_of_ne_nil hL, Option.map_eq_none', buildEdges_eq_none]
  constructor
  · rintro ⟨t, ht, h⟩
    exact ⟨t, ht, mkEdge_eq_none_iff.mp h⟩
  · rintro ⟨t, ht, h⟩
    exact ⟨t, ht, mkEdge_eq_none_iff.mpr h⟩

/-- Witness for the amended C8: a 1×2 matrix with a single label does fault,
since its above-threshold entry sits at column 1. -/
theorem make_graph_mismatch_fault_witness :
    make_graph [[0, (5:ℚ)]] (some ["a"]) = none ↔
      ∃ t ∈ edgeTriples [[0, (5:ℚ)]],
        ["a"].length ≤ t.1 ∨ ["a"].length ≤ t.2.1 :=
  make_graph_mismatch_fault [[0, (5:ℚ)]] ["a"] (by decide)

/-- Strict row-major (lexicographic) order on emitted triples' matrix
positions. -/
def rmLt (a b : Nat × Nat × ℚ) : Prop :=
  a.1 < b.1 ∨ (a.1 = b.1 ∧ a.2.1 < b.2.1)

/-- The triple list is strictly increasing in row-major order. -/
theorem edgeTriples_row_major (M : List (List ℚ)) :
    (edgeTriples M).Pairwise rmLt := by
  unfold edgeTriples
  rw [List.pairwise_flatten]
  constructor
  · intro l hl
    rcases List.mem_map.mp hl with ⟨r, _, rfl⟩
    rw [List.pairwise_filterMap]
    refine List.Pairwise.imp ?_ (List.pairwise_lt_range _)
    intro c c' hlt b hb b' hb'
    rw [Option.mem_def] at hb hb'
    split_ifs at hb hb'
    cases hb
    cases hb'
    exact Or.inr ⟨rfl, hlt⟩
  · rw [List.pairwise_map]
    refine List.Pairwise.imp ?_ (List.pairwise_lt_range _)
    intro r r' hlt x hx y hy
    rcases List.mem_filterMap.mp hx with ⟨c, _, hifx⟩
    rcases List.mem_filterMap.mp hy with ⟨c', _, hify⟩
    split_ifs at hifx hify
    cases hifx
    cases hify
    exact Or.inl hlt

/-- C10: `make_graph` emits edges in row-major order of the matrix indices:
the above-threshold triples are strictly increasing in the lexicographic
order on (row, column), and the returned edge list is their pointwise image,
so the emitted text is a deterministic function of matrix and labels. -/
theorem make_graph_row_major (M : List (List ℚ)) (L : List String)
    (hsq : ∀ row ∈ M, row.length = M.length) (hL : L.length = M.length) :
    (edgeTriples M).Pairwise rmLt ∧
    make_graph M (some L) = some (Digraph.mk L ((edgeTriples M).map
      (fun t => (L.getD t.2.1 "", L.getD t.1 "", t.2.2)))) := by
  refine ⟨edgeTriples_row_major M, ?_⟩
  have h := make_graph_eq M (some L) (triples_in_range M L hsq hL)
  rwa [resolveNames_eq_self hL] at h

/-- Witness for C10 at the 2×2 scenario matrix. -/
theorem make_graph_row_major_witness :
    (edgeTriples M22).Pairwise rmLt ∧
    make_graph M22 (some ["a", "b"]) = some (Digraph.mk ["a", "b"]
      ((edgeTriples M22).map
        (fun t => (["a", "b"].getD t.2.1 "", ["a", "b"].getD t.1 "", t.2.2)))) :=
  make_graph_row_major M22 ["a", "b"] (by decide) (by decide)

/-- C7 as stated is false: an all-whitespace input certainly lacks the
assumed renderer shape, and on it `str_to_dot` raises an index fault when
evaluating `graph[-1]` on the empty stripped text, instead of returning a
(corrupted) string. -/
theorem str_to_dot_whitespace_counterexample : str_to_dot "  ".toList = none := by
  decide

/-- C7 amended: `str_to_dot` performs no validation and raises no error on
any input whose stripped and rewritten text is nonempty, returning a
(possibly corrupted) string; it faults only when that text is empty. -/
theorem str_to_dot_total_on_nonempty (s : List Char)
    (h : preprocess s ≠ []) : (str_to_dot s).isSome = true := by
  have hlen : (preprocess s).length - 1 < (preprocess s).length := by
    have hpos : 0 < (preprocess s).length := List.length_pos.mpr h
    omega
  unfold str_to_dot
  rw [List.get?_eq_getElem?, List.getElem?_eq_getElem hlen, Option.map_some']
  rfl

/-- Witness for the amended C7 on a short, shapeless input. -/
theorem str_to_dot_total_on_nonempty_witness :
    (str_to_dot "abc".toList).isSome = true :=
  str_to_dot_total_on_nonempty "abc".toList (by decide)

/-- C2's edit description is false on short inputs: this ten-character input
(no whitespace, newlines, or tabs, so it is its own processed text) is
returned unchanged, whereas removing the character at position 9 and the
second-to-last character would leave only eight characters. -/
theorem str_to_dot_short_counterexample :
    preprocess "0123456789".toList = "0123456789".toList ∧
    str_to_dot "0123456789".toList = some "0123456789".toList ∧
    (("0123456789".toList.eraseIdx 9).eraseIdx 8).length = 8 ∧
    "0123456789".toList.length = 10 := by
  decide

/-- C2 amended: whenever the processed text `t` (strip whitespace, replace
newlines by semicolons, delete tabs) has length at least 12, `str_to_dot`
returns exactly `t` with the character at position 9 and the second-to-last
character removed; for shorter nonempty `t` the positional slicing removes
fewer characters (a length-10 text is returned unchanged), and for empty `t`
an index fault occurs. -/
theorem str_to_dot_removes_two (s : List Char)
    (h : 12 ≤ (preprocess s).length) :
    str_to_dot s =
      some (((preprocess s).eraseIdx ((preprocess s).length - 2)).eraseIdx 9) := by
  have hlen : (preprocess s).length - 1 < (preprocess s).length := by omega
  unfold str_to_dot
  rw [List.get?_eq_getElem?, List.getElem?_eq_getElem hlen, Option.map_some']
  congr 1
  rw [List.eraseIdx_eq_take_drop_succ, List.eraseIdx_eq_take_drop_succ]
  have h1 : (preprocess s).length - 2 + 1 = (preprocess s).length - 1 := by omega
  rw [h1]
  have hni : ((preprocess s).take ((preprocess s).length - 2)).length =
      (preprocess s).length - 2 := by
    rw [List.length_take]
    omega
  rw [List.take_append_eq_append_take, List.drop_append_eq_append_drop, hni]
  have h2 : 9 - ((preprocess s).length - 2) = 0 := by omega
  have h3 : 10 - ((preprocess s).length - 2) = 0 := by omega
  rw [h2, h3, List.take_zero, List.drop_zero, List.append_nil]
  have h4 : ((preprocess s).take ((preprocess s).length - 2)).take 9 =
      (preprocess s).take 9 := by
    rw [List.take_take]
    have : min 9 ((preprocess s).length - 2) = 9 := by omega
    rw [this]
  have h5 : (preprocess s).drop ((preprocess s).length - 1) =
      [(preprocess s)[(preprocess s).length - 1]] := by
    rw [List.drop_eq_getElem_cons hlen]
    have : (preprocess s).length - 1 + 1 = (preprocess s).length := by omega
    rw [this, List.drop_length]
  rw [h4, h5, List.append_assoc]

/-- Witness for the amended C2 at a 13-character input. -/
theorem str_to_dot_removes_two_witness :
    str_to_dot "abcdefghijklm".toList =
      some (((preprocess "abcdefghijklm".toList).eraseIdx
        ((preprocess "abcdefghijklm".toList).length - 2)).eraseIdx 9) :=
  str_to_dot_removes_two "abcdefghijklm".toList (by decide)

/-- Modelled from the spec: the native-dialect text produced by Operation
1's renderer, which lives in the external graph-drawing library and not in
this repository: a `digraph` header line ending in an opening brace, one
tab-indented line per statement (node or edge declaration), each terminated
by a newline, and a closing-brace line. -/
def rendererSource (lines : List (List Char)) : List Char :=
  ("digraph \x7b\n".toList ++
    (lines.map (fun l => '\t' :: (l ++ ['\n']))).flatten) ++ ['\x7d', '\n']

/-- Statement lines joined by single semicolons. -/
def semiJoin : List (List Char) → List Char
  | [] => []
  | [l] => l
  | l :: l' :: ls => l ++ (';' :: semiJoin (l' :: ls))

/-- Right strip removes exactly the final newline of the renderer text. -/
theorem rstripWs_concat (X : List Char) :
    rstripWs (X ++ ['\x7d', '\n']) = X ++ ['\x7d'] := by
  unfold rstripWs
  rw [List.reverse_append]
  have h1 : (['\x7d', '\n'] : List Char).reverse = ['\n', '\x7d'] := by decide
  rw [h1]
  simp only [List.cons_append, List.nil_append]
  rw [List.dropWhile_cons, if_pos (by decide : isPyWs '\n' = true)]
  rw [List.dropWhile_cons, if_neg (by decide : ¬ isPyWs '\x7d' = true)]
  rw [List.reverse_cons, List.reverse_reverse]

/-- Left strip leaves the renderer text unchanged: it starts with `d`. -/
theorem dropWhile_renderer (lines : List (List Char)) :
    List.dropWhile isPyWs (rendererSource lines) = rendererSource lines := by
  have hH : "digraph \x7b\n".toList = 'd' :: "igraph \x7b\n".toList := by decide
  have h2 : rendererSource lines = 'd' :: (("igraph \x7b\n".toList ++
      (lines.map (fun l => '\t' :: (l ++ ['\n']))).flatten) ++ ['\x7d', '\n']) := by
    unfold rendererSource
    rw [hH, List.cons_append, List.cons_append]
  rw [h2, List.dropWhile_cons, if_neg (by decide : ¬ isPyWs 'd' = true)]

/-- Stripping the renderer text removes exactly its final newline. -/
theorem pyStrip_renderer (lines : List (List Char)) :
    pyStrip (rendererSource lines) =
      ("digraph \x7b\n".toList ++
        (lines.map (fun l => '\t' :: (l ++ ['\n']))).flatten) ++ ['\x7d'] := by
  unfold pyStrip
  rw [dropWhile_renderer]
  unfold rendererSource
  exact rstripWs_concat _

/-- Newline replacement fixes a newline-free text. -/
theorem map_nlToSemi_eq_self {l : List Char} (h : ∀ c ∈ l, c ≠ '\n') :
    l.map nlToSemi = l := by
  induction l with
  | nil => rfl
  | cons a l ih =>
    rw [List.map_cons, ih (fun c hc => h c (List.mem_cons_of_mem a hc))]
    have ha : nlToSemi a = a := by
      unfold nlToSemi
      rw [if_neg (h a (List.mem_cons_self a l))]
    rw [ha]

/-- Tab removal fixes a tab-free text. -/
theorem filter_ne_tab_eq_self {l : List Char} (h : ∀ c ∈ l, c ≠ '\t') :
    l.filter (fun c => c != '\t') = l := by
  induction l with
  | nil => rfl
  | cons a l ih =>
    have ha : (a != '\t') = true := bne_iff_ne.mpr (h a (List.mem_cons_self a l))
    rw [List.filter_cons_of_pos (p := fun c => c != '\t') ha,
      ih (fun c hc => h c (List.mem_cons_of_mem a hc))]

/-- Newline replacement plus tab removal turns the tab-indented
newline-terminated statement blocks into semicolon-terminated blocks. -/
theorem blocks_preprocess (lines : List (List Char))
    (h : ∀ l ∈ lines, ∀ c ∈ l, c ≠ '\n' ∧ c ≠ '\t') :
    ((lines.map (fun l => '\t' :: (l ++ ['\n']))).flatten.map nlToSemi).filter
        (fun c => c != '\t') =
      (lines.map (fun l => l ++ [';'])).flatten := by
  induction lines with
  | nil => rfl
  | cons l ls ih =>
    have hln : ∀ c ∈ l, c ≠ '\n' := fun c hc => (h l (List.mem_cons_self l ls) c hc).1
    have hlt : ∀ c ∈ l, c ≠ '\t' := fun c hc => (h l (List.mem_cons_self l ls) c hc).2
    have ihh := ih (fun l' hl' c hc => h l' (List.mem_cons_of_mem l hl') c hc)
    rw [List.map_cons, List.flatten_cons, List.map_append, List.filter_append, ihh,
      List.map_cons, List.map_append, map_nlToSemi_eq_self hln]
    have hnl : (['\n'] : List Char).map nlToSemi = [';'] := by decide
    have htab : nlToSemi '\t' = '\t' := by decide
    rw [hnl, htab,
      List.filter_cons_of_neg (p := fun c => c != '\t')
        (by decide : ¬ ('\t' != '\t') = true),
      List.filter_append, filter_ne_tab_eq_self hlt]
    have hsemi : (([';'] : List Char).filter (fun c => c != '\t')) = [';'] := by decide
    rw [hsemi, List.map_cons, List.flatten_cons]

/-- The full preprocessing of a renderer text: header with a semicolon in
place of its newline, semicolon-terminated statements, closing brace. -/
theorem preprocess_renderer (lines : List (List Char))
    (h : ∀ l ∈ lines, ∀ c ∈ l, c ≠ '\n' ∧ c ≠ '\t') :
    preprocess (rendererSource lines) =
      ("digraph \x7b;".toList ++ (lines.map (fun l => l ++ [';'])).flatten) ++
        ['\x7d'] := by
  unfold preprocess
  rw [pyStrip_renderer, List.map_append, List.filter_append, List.map_append,
    List.filter_append, blocks_preprocess lines h]
  have h1 : (("digraph \x7b\n".toList.map nlToSemi).filter (fun c => c != '\t')) =
      "digraph \x7b;".toList := by decide
  have h2 : (((['\x7d'] : List Char).map nlToSemi).filter (fun c => c != '\t')) =
      ['\x7d'] := by decide
  rw [h1, h2]

/-- Dropping the final semicolon of the semicolon-terminated blocks yields
the semicolon-separated join. -/
theorem flatten_semis_dropLast :
    ∀ lines : List (List Char),
      ((lines.map (fun l => l ++ [';'])).flatten).dropLast = semiJoin lines
  | [] => rfl
  | [l] => by
    rw [List.map_cons, List.map_nil, List.flatten_cons, List.flatten_nil,
      List.append_nil, List.dropLast_concat]
    rfl
  | l :: l' :: ls => by
    have ih := flatten_semis_dropLast (l' :: ls)
    have hne : (((l' :: ls).map (fun l => l ++ [';'])).flatten) ≠ [] := by
      rw [List.map_cons, List.flatten_cons]
      intro hcon
      rcases List.append_eq_nil.mp hcon with ⟨hl, _⟩
      rcases List.append_eq_nil.mp hl with ⟨_, hsemi⟩
      cases hsemi
    show ((l ++ [';']) ++ (((l' :: ls).map (fun l => l ++ [';'])).flatten)).dropLast =
      semiJoin (l :: l' :: ls)
    rw [List.dropLast_append_of_ne_nil (l ++ [';']) hne, ih, List.append_assoc]
    rfl

/-- C6 as stated is false: on a well-shaped renderer text the graph-type
declaration keyword is not removed; the returned string still starts with
the full `digraph` header. -/
theorem str_to_dot_keyword_counterexample :
    str_to_dot (rendererSource [['a'], ['b']]) =
      some "digraph \x7ba;b\x7d".toList ∧
    "digraph \x7ba;b\x7d".toList.take 7 = "digraph".toList := by
  decide

/-- C6 amended: on every input with the renderer's structural shape
(statement lines free of newlines and tabs), `str_to_dot` keeps the
graph-type declaration `digraph` and its braces, and removes exactly the two
artifact semicolons created by newline replacement, the one after the header
and the one before the closing brace: the result is the header, the
semicolon-separated statements, and the closing brace. -/
theorem str_to_dot_renderer (lines : List (List Char))
    (h : ∀ l ∈ lines, ∀ c ∈ l, c ≠ '\n' ∧ c ≠ '\t') :
    str_to_dot (rendererSource lines) =
      some (("digraph \x7b".toList ++ semiJoin lines) ++ ['\x7d']) := by
  cases lines with
  | nil => decide
  | cons l0 ls0 =>
    have hBne : (((l0 :: ls0).map (fun l => l ++ [';'])).flatten) ≠ [] := by
      rw [List.map_cons, List.flatten_cons]
      intro hcon
      rcases List.append_eq_nil.mp hcon with ⟨hl, _⟩
      rcases List.append_eq_nil.mp hl with ⟨_, hsemi⟩
      cases hsemi
    have hp := preprocess_renderer (l0 :: ls0) h
    unfold str_to_dot
    rw [hp]
    set B := (((l0 :: ls0).map (fun l => l ++ [';'])).flatten) with hB
    have hPlen : ("digraph \x7b;".toList).length = 10 := by decide
    have hidx : (("digraph \x7b;".toList ++ B) ++ ['\x7d']).length - 1 =
        ("digraph \x7b;".toList ++ B).length := by
      rw [List.length_append ("digraph \x7b;".toList ++ B) ['\x7d']]
      simp
    rw [hidx, List.get?_eq_getElem?, List.getElem?_concat_length, Option.map_some']
    congr 1
    have hPBlen : ("digraph \x7b;".toList ++ B).length = 10 + B.length := by
      rw [List.length_append, hPlen]
    have ht9 : (("digraph \x7b;".toList ++ B) ++ ['\x7d']).take 9 =
        "digraph \x7b".toList := by
      rw [List.take_append_eq_append_take]
      have h1 : 9 - ("digraph \x7b;".toList ++ B).length = 0 := by omega
      rw [h1, List.take_zero, List.append_nil, List.take_append_eq_append_take]
      have h2 : 9 - ("digraph \x7b;".toList).length = 0 := by omega
      rw [h2, List.take_zero, List.append_nil]
      decide
    have hL2 : (("digraph \x7b;".toList ++ B) ++ ['\x7d']).length - 2 =
        ("digraph \x7b;".toList ++ B).length - 1 := by
      rw [List.length_append ("digraph \x7b;".toList ++ B) ['\x7d']]
      simp
    have hmid : ((("digraph \x7b;".toList ++ B) ++ ['\x7d']).take
        ((("digraph \x7b;".toList ++ B) ++ ['\x7d']).length - 2)).drop 10 =
        semiJoin (l0 :: ls0) := by
      rw [hL2, List.take_append_eq_append_take]
      have h3 : ("digraph \x7b;".toList ++ B).length - 1 -
          ("digraph \x7b;".toList ++ B).length = 0 := by omega
      rw [h3, List.take_zero, List.append_nil, ← List.dropLast_eq_take,
        List.dropLast_append_of_ne_nil "digraph \x7b;".toList hBne,
        List.drop_append_eq_append_drop]
      have h4 : 10 - ("digraph \x7b;".toList).length = 0 := by omega
      have h5 : ("digraph \x7b;".toList).drop 10 = [] := by decide
      rw [h4, List.drop_zero, h5, List.nil_append, hB]
      exact flatten_semis_dropLast (l0 :: ls0)
    rw [ht9, hmid]

/-- Witness for the amended C6 at a two-statement renderer text. -/
theorem str_to_dot_renderer_witness :
    str_to_dot (rendererSource [['a'], ['b']]) =
      some (("digraph \x7b".toList ++ semiJoin [['a'], ['b']]) ++ ['\x7d']) :=
  str_to_dot_renderer [['a'], ['b']] (by decide)

end CausalDiscoveryNotebook
